import Mathlib

/-!
Verification development for a DEFLATE compressor/decompressor
(LZ77 match finding, canonical Huffman coding, bit-level stream
primitives, block framing).

The definitions below are shallow embeddings of the Python sources:
bit_writer.py / bit_reader.py (bit stream I/O), CRC_32.py (checksum),
LZ77_deflate.py and LZ77.py (match finder and length/distance symbol
tables), huffman_coding.py (Huffman tree construction and canonical
codes), deflate.py and algorithms/deflate.py (block encoder/decoder).
Python machine integers are modelled as Nat / Int, mutable state is
threaded explicitly, and exceptions become Except values.
-/

namespace DeflateVerify

/-- Decidable equality for Except results, needed to evaluate the
embedded fallible functions on concrete inputs. -/
instance {ε α : Type} [DecidableEq ε] [DecidableEq α] : DecidableEq (Except ε α) :=
  fun x y =>
    match x, y with
    | .ok a, .ok b =>
        if h : a = b then isTrue (by rw [h])
        else isFalse (by intro hh; cases hh; exact h rfl)
    | .error e, .error f =>
        if h : e = f then isTrue (by rw [h])
        else isFalse (by intro hh; cases hh; exact h rfl)
    | .ok _, .error _ => isFalse (by intro hh; cases hh)
    | .error _, .ok _ => isFalse (by intro hh; cases hh)

/-- Precomputed product instance, keeping instance search for the
quadruple returned by the LZ77 compressor shallow. -/
instance : DecidableEq (List Int × List Int × List (Nat × Int) × List (Nat × Int)) :=
  inferInstance

/-! ## Bit stream I/O (bit_writer.py, bit_reader.py) -/

/-- Embedding of BitWriter.write_bits_lsb: the bits appended to the
stream, least significant bit first; bit i is (value >> i) & 1. -/
def write_bits_lsb (value length : Nat) : List Bool :=
  (List.range length).map (fun i => (value >>> i) &&& 1 == 1)

/-- Embedding of BitWriter.write_bits_msb: the bits appended to the
stream, most significant bit first (loop from length-1 down to 0). -/
def write_bits_msb (value length : Nat) : List Bool :=
  (List.range length).reverse.map (fun i => (value >>> i) &&& 1 == 1)

/-- State of BitReader: the bit stream read from the file and the
current bit position. -/
structure BitReader where
  bits : List Bool
  pos : Nat
deriving DecidableEq, Repr

/-- Embedding of BitReader.read_bit: one bit as 0 or 1, or EOFError
when the stream is exhausted. -/
def BitReader.read_bit (br : BitReader) : Except String (Nat × BitReader) :=
  if br.pos ≥ br.bits.length then .error ("EOFError: bit stream length exceeded")
  else .ok ((if br.bits.getD br.pos false then 1 else 0), ⟨br.bits, br.pos + 1⟩)

/-- The value accumulation loop of read_bits_lsb: for each of n bits
read at increasing positions, val gets bit << i or-ed in. -/
def lsbFold (bits : List Bool) : Nat → Nat → Nat → Nat → Nat
  | _, 0, _, val => val
  | pos, n + 1, i, val =>
      lsbFold bits (pos + 1) n (i + 1)
        (val ||| ((if bits.getD pos false then 1 else 0) <<< i))

/-- The value accumulation loop of read_bits_msb:
val = (val << 1) | bit, n times. -/
def msbFold (bits : List Bool) : Nat → Nat → Nat → Nat
  | _, 0, val => val
  | pos, n + 1, val =>
      msbFold bits (pos + 1) n
        ((val <<< 1) ||| (if bits.getD pos false then 1 else 0))

/-- Embedding of BitReader.read_bits_lsb: bounds check (EOFError), then
n sequential read_bit calls accumulating LSB-first. -/
def BitReader.read_bits_lsb (br : BitReader) (n : Nat) : Except String (Nat × BitReader) :=
  if br.pos + n > br.bits.length then .error ("EOFError: not enough bits to read LSB")
  else .ok (lsbFold br.bits br.pos n 0 0, ⟨br.bits, br.pos + n⟩)

/-- Embedding of BitReader.read_bits_msb: bounds check (EOFError), then
n sequential read_bit calls accumulating MSB-first. -/
def BitReader.read_bits_msb (br : BitReader) (n : Nat) : Except String (Nat × BitReader) :=
  if br.pos + n > br.bits.length then .error ("EOFError: not enough bits to read MSB")
  else .ok (msbFold br.bits br.pos n 0, ⟨br.bits, br.pos + n⟩)

/-- Embedding of BitReader.byte_align: advance pos to the next byte
boundary. -/
def BitReader.byte_align (br : BitReader) : BitReader :=
  if br.pos % 8 = 0 then br else ⟨br.bits, br.pos + (8 - br.pos % 8)⟩

/-! ## CRC-32 (CRC_32.py) -/

/-- One iteration of the CRC table generator loop from CRC_32.py. -/
def crcTableStep (c : Nat) : Nat :=
  if c &&& 1 == 1 then (c >>> 1) ^^^ 0xedb88320 else c >>> 1

/-- Embedding of the CRC_TABLE initialization: entry n is eight
applications of the generator step to n. -/
def CRC_TABLE (n : Nat) : Nat := crcTableStep^[8] n

/-- Embedding of the per-byte body of CRC32.update. -/
def crcUpdateByte (crc b : Nat) : Nat :=
  (crc >>> 8) ^^^ CRC_TABLE ((crc ^^^ b) &&& 0xff)

/-- Embedding of CRC32.update on a byte array (offset 0, full length):
the per-byte update folded over the bytes. -/
def crcUpdate (crc : Nat) (bs : List Nat) : Nat := bs.foldl crcUpdateByte crc

/-- Initial register value set by the CRC32 constructor. -/
def crcInit : Nat := 0xffffffff

/-- Embedding of CRC32.get_value: Python computes crc complemented and
masked, which for a nonnegative register equals this subtraction. -/
def crcGetValue (crc : Nat) : Nat := 2 ^ 32 - 1 - crc % 2 ^ 32

/-- Embedding of the classmethod CRC32.calculate: fresh object, one
update over the whole data, then get_value. -/
def crcCalculate (data : List Nat) : Nat := crcGetValue (crcUpdate crcInit data)

/-! ## Length and distance symbol tables
(LZ77_deflate.py and LZ77.py, identical tables) -/

/-- The DEFLATE length table _length_table: (code, base length,
extra bit count). -/
def length_table : List (Nat × Int × Nat) :=
  [(257, 3, 0), (258, 4, 0), (259, 5, 0), (260, 6, 0), (261, 7, 0),
   (262, 8, 0), (263, 9, 0), (264, 10, 0), (265, 11, 1), (266, 13, 1),
   (267, 15, 1), (268, 17, 1), (269, 19, 2), (270, 23, 2), (271, 27, 2),
   (272, 31, 2), (273, 35, 3), (274, 43, 3), (275, 51, 3), (276, 59, 3),
   (277, 67, 4), (278, 83, 4), (279, 99, 4), (280, 115, 4), (281, 131, 5),
   (282, 163, 5), (283, 195, 5), (284, 227, 5), (285, 258, 0)]

/-- The DEFLATE distance table _distance_table: (code, base distance,
extra bit count). -/
def distance_table : List (Nat × Int × Nat) :=
  [(0, 1, 0), (1, 2, 0), (2, 3, 0), (3, 4, 0), (4, 5, 1), (5, 7, 1),
   (6, 9, 2), (7, 13, 2), (8, 17, 3), (9, 25, 3), (10, 33, 4), (11, 49, 4),
   (12, 65, 5), (13, 97, 5), (14, 129, 6), (15, 193, 6), (16, 257, 7),
   (17, 385, 7), (18, 513, 8), (19, 769, 8), (20, 1025, 9), (21, 1537, 9),
   (22, 2049, 10), (23, 3073, 10), (24, 4097, 11), (25, 6145, 11),
   (26, 8193, 12), (27, 12289, 12), (28, 16385, 13), (29, 24577, 13)]

/-- The forward table scan of map_length / map_distance in
LZ77_deflate.py: first entry whose range end covers the value, with a
fallback result when none does; returns (code, extra bit count, extra
value). -/
def mapScan (t : List (Nat × Int × Nat)) (fallback : Nat × Nat × Int) (v : Int) :
    Nat × Nat × Int :=
  match t with
  | [] => fallback
  | (code, base, bits) :: rest =>
      if v ≤ base + ((1 <<< bits : Nat) : Int) - 1 then (code, bits, v - base)
      else mapScan rest fallback v

/-- Embedding of LZ77.map_length from LZ77_deflate.py (total, never
raises; falls through to (285, 0, 0)). -/
def map_length (length : Int) : Nat × Nat × Int :=
  mapScan length_table (285, 0, 0) length

/-- Embedding of LZ77.map_distance from LZ77_deflate.py (total, never
raises; falls through to (29, 13, dist - 24577)). -/
def map_distance (dist : Int) : Nat × Nat × Int :=
  mapScan distance_table (29, 13, dist - 24577) dist

/-- The reversed table scan of map_length / map_distance in LZ77.py:
first entry (from the largest base down) whose base is at most the
value; raises ValueError when the value is below every base. -/
def mapScanRev (t : List (Nat × Int × Nat)) (errMsg : String) (v : Int) :
    Except String (Nat × Nat × Int) :=
  match t with
  | [] => .error errMsg
  | (code, base, bits) :: rest =>
      if v ≥ base then .ok (code, bits, v - base) else mapScanRev rest errMsg v

/-- Embedding of LZ77.map_length from LZ77.py (the raising variant). -/
def map_lengthM (v : Int) : Except String (Nat × Nat × Int) :=
  mapScanRev length_table.reverse ("ValueError: length out of range, min 3") v

/-- Embedding of LZ77.map_distance from LZ77.py (the raising
variant). -/
def map_distanceM (v : Int) : Except String (Nat × Nat × Int) :=
  mapScanRev distance_table.reverse ("ValueError: distance out of range, min 1") v

/-! ## Table-driven decoders (algorithms/deflate.py) -/

/-- The table search loop of Deflate._decode_length: find the entry for
the code, read its extra bits (an EOFError while reading propagates),
and return base plus extra. -/
def decodeLengthScan : List (Nat × Int × Nat) → BitReader → Nat →
    Except String (Option Int × BitReader)
  | [], br, _ => .ok (none, br)
  | (code, base_len, extra_bits) :: rest, br, length_code =>
      if code = length_code then
        if extra_bits > 0 then
          match br.read_bits_lsb extra_bits with
          | .ok (extra, br1) => .ok (some (base_len + (extra : Int)), br1)
          | .error e => .error e
        else .ok (some base_len, br)
      else decodeLengthScan rest br length_code

/-- Embedding of Deflate._decode_length from algorithms/deflate.py. -/
def decode_length (br : BitReader) (length_code : Nat) :
    Except String (Option Int × BitReader) :=
  if length_code < 257 ∨ length_code > 285 then .ok (none, br)
  else decodeLengthScan length_table br length_code

/-- The table search loop of Deflate._decode_distance: find the entry
for the code, read its extra bits (falling back to the base on
EOFError), check the window bound, and return base plus extra. -/
def decodeDistScan : List (Nat × Int × Nat) → BitReader → Nat →
    Except String (Option Int × BitReader)
  | [], br, _ => .ok (none, br)
  | (code, base_dist, extra_bits) :: rest, br, distance_code =>
      if code = distance_code then
        if extra_bits > 0 then
          match br.read_bits_lsb extra_bits with
          | .ok (extra, br1) =>
              if base_dist + (extra : Int) > 32768 then
                .error ("ValueError: distance exceeds maximum window size")
              else .ok (some (base_dist + (extra : Int)), br1)
          | .error _ => .ok (some base_dist, br)
        else .ok (some base_dist, br)
      else decodeDistScan rest br distance_code

/-- Embedding of Deflate._decode_distance from algorithms/deflate.py. -/
def decode_distance (br : BitReader) (distance_code : Nat) :
    Except String (Option Int × BitReader) :=
  if distance_code > 29 then .ok (none, br)
  else decodeDistScan distance_table br distance_code

/-! ## LZ77 match finder, deflate_utils variant (LZ77_deflate.py) -/

/-- A token of the LZ77 token stream: a literal byte or a
(distance, length) back-reference. -/
inductive Token where
  | lit (b : Nat)
  | mtch (dist length : Nat)
deriving DecidableEq, Repr

/-- Python slice data a b (clamped, step 1). -/
def sublist (data : List Nat) (a b : Nat) : List Nat :=
  (data.drop a).take (b - a)

/-- The byte-by-byte match extension loop of find_match: count matching
bytes, bounded by the end of the data, the current position and the
lookahead limit of 258. The first argument is the remaining lookahead
budget 258 - k, which makes the recursion structural (and hence kernel
reducible); the source loop bound k < 258 stays in the guard. -/
def matchLenGo (data : List Nat) (cand cp : Nat) : Nat → Nat → Nat
  | 0, k => k
  | rem + 1, k =>
      if cp + k < data.length ∧ cand + k < cp ∧ k < 258
          ∧ data.getD (cand + k) 0 = data.getD (cp + k) 0
      then matchLenGo data cand cp rem (k + 1) else k

/-- The match length computed by find_match starting at offset k. -/
def matchLen (data : List Nat) (cand cp : Nat) (k : Nat) : Nat :=
  matchLenGo data cand cp (258 - k) k

/-- The candidate scan of find_match (LZ77_deflate.py): keep the first
candidate achieving a strictly greater match length, breaking out
early when the lookahead limit is reached. -/
def bestLoop (data : List Nat) (cp : Nat) : List Nat → Nat × Nat → Nat × Nat
  | [], best => best
  | c :: rest, best =>
      let distance := cp - c
      if distance < 1 then bestLoop data cp rest best
      else
        let ml := matchLen data c cp 0
        if ml > best.2 then
          if ml = 258 then (distance, ml) else bestLoop data cp rest (distance, ml)
        else bestLoop data cp rest best

/-- The hash table insertion at the start of find_match: position
cp - 2 is appended under the key of the trigram ending at cp (only when
cp is at least 2). The table maps each hash key to its stored position
list; the empty list plays the role of an absent key. -/
def insertBack (h : List Nat → Nat) (data : List Nat) (cp : Nat)
    (tbl : Nat → List Nat) : Nat → List Nat :=
  if cp ≥ 2 then
    let key := h (sublist data (cp - 2) (cp + 1))
    fun k => if k = key then tbl key ++ [cp - 2] else tbl k
  else tbl

/-- The window filter of find_match (LZ77_deflate.py): candidates for
the current trigram key at positions not older than the window. -/
def validCandidates (h : List Nat → Nat) (w : Nat) (data : List Nat) (cp : Nat)
    (tbl1 : Nat → List Nat) : List Nat :=
  (tbl1 (h (sublist data cp (cp + 3)))).filter (fun p => decide (p ≥ cp - (w - 1)))

/-- Embedding of LZ77.find_match from LZ77_deflate.py, parameterized by
the hash function h on trigrams. Returns the optional
(distance, length) pair together with the updated hash table. -/
def find_match (h : List Nat → Nat) (w : Nat) (data : List Nat) (cp : Nat)
    (tbl : Nat → List Nat) : Option (Nat × Nat) × (Nat → List Nat) :=
  if cp ≥ data.length then (none, tbl)
  else
    let tbl1 := insertBack h data cp tbl
    let scan : (Nat × Nat) × (Nat → List Nat) :=
      if cp + 2 < data.length then
        let key := h (sublist data cp (cp + 3))
        if tbl1 key ≠ [] then
          let valid := validCandidates h w data cp tbl1
          let tbl2 : Nat → List Nat := fun k => if k = key then valid else tbl1 k
          if valid = [] then ((0, 0), tbl2)
          else (bestLoop data cp valid (0, 0), tbl2)
        else ((0, 0), tbl1)
      else ((0, 0), tbl1)
    if scan.1.2 ≥ 3 then (some scan.1, scan.2) else (none, scan.2)

/-- The tokenization loop of LZ77.compress (deflate branch,
LZ77_deflate.py). The fuel bounds the while loop; i advances by at
least one byte per iteration, so data.length iterations suffice. Each
emitted token is paired with the input position i at which it was
produced. -/
def tokenizeAux (h : List Nat → Nat) (w : Nat) (data : List Nat) :
    Nat → Nat → (Nat → List Nat) → List (Nat × Token)
  | 0, _, _ => []
  | fuel + 1, i, tbl =>
      if i < data.length then
        match find_match h w data i tbl with
        | (some (dist, length), tbl1) =>
            if dist > w then
              (i, .lit (data.getD i 0)) :: tokenizeAux h w data fuel (i + 1) tbl1
            else if dist > 0 ∧ dist ≤ i then
              (i, .mtch dist length) :: tokenizeAux h w data fuel (i + length) tbl1
            else
              (i, .lit (data.getD i 0)) :: tokenizeAux h w data fuel (i + 1) tbl1
        | (none, tbl1) =>
            (i, .lit (data.getD i 0)) :: tokenizeAux h w data fuel (i + 1) tbl1
      else []

/-- The token stream produced by LZ77.compress (deflate branch,
LZ77_deflate.py); the window size is clamped to 32768 as in the
constructor. -/
def tokenize (h : List Nat → Nat) (windowSize : Nat) (data : List Nat) :
    List (Nat × Token) :=
  tokenizeAux h (min windowSize 32768) data data.length 0 (fun _ => [])

/-! ## LZ77 match finder, main variant (LZ77.py) -/

/-- The candidate scan of find_match in LZ77.py: same strict-improvement
rule, but the window check is an in-loop skip and there is no early
break. -/
def bestLoopM (data : List Nat) (cp w : Nat) : List Nat → Nat × Nat → Nat × Nat
  | [], best => best
  | c :: rest, best =>
      let distance := cp - c
      if distance > w - 1 then bestLoopM data cp w rest best
      else
        let ml := matchLen data c cp 0
        if ml > best.2 then bestLoopM data cp w rest (distance, ml)
        else bestLoopM data cp w rest best

/-- Embedding of LZ77.find_match from LZ77.py (insertion, then scan of
the stored candidates for the current trigram without any pruning). -/
def find_matchM (h : List Nat → Nat) (w : Nat) (data : List Nat) (cp : Nat)
    (tbl : Nat → List Nat) : Option (Nat × Nat) × (Nat → List Nat) :=
  if cp ≥ data.length then (none, tbl)
  else
    let tbl1 := insertBack h data cp tbl
    let best :=
      if cp + 2 < data.length then
        bestLoopM data cp w (tbl1 (h (sublist data cp (cp + 3)))) (0, 0)
      else (0, 0)
    if best.2 ≥ 3 then (some best, tbl1) else (none, tbl1)

/-- The tokenization loop of LZ77.compress (deflate branch, LZ77.py):
a returned match is appended unconditionally. -/
def tokenizeMAux (h : List Nat → Nat) (w : Nat) (data : List Nat) :
    Nat → Nat → (Nat → List Nat) → List Token
  | 0, _, _ => []
  | fuel + 1, i, tbl =>
      if i < data.length then
        match find_matchM h w data i tbl with
        | (some (dist, length), tbl1) =>
            .mtch dist length :: tokenizeMAux h w data fuel (i + length) tbl1
        | (none, tbl1) =>
            .lit (data.getD i 0) :: tokenizeMAux h w data fuel (i + 1) tbl1
      else []

/-- The token stream of LZ77.compress (deflate branch, LZ77.py). -/
def tokenizeM (h : List Nat → Nat) (windowSize : Nat) (data : List Nat) : List Token :=
  tokenizeMAux h (min windowSize 32768) data data.length 0 (fun _ => [])

/-- The symbol mapping loop of LZ77.compress (deflate branch, LZ77.py):
builds, in source order, the quadruple (symbol_list, distance_list,
symbol_extra_bits_list, distance_extra_bits_list); the raising
map_length / map_distance propagate errors. -/
def mapTokens : List Token →
    Except String (List Int × List Int × List (Nat × Int) × List (Nat × Int))
  | [] => .ok ([], [], [], [])
  | .lit b :: ts =>
      match mapTokens ts with
      | .error e => .error e
      | .ok (syms, dists, symEx, distEx) =>
          .ok ((b : Int) :: syms, dists, (0, 0) :: symEx, distEx)
  | .mtch dist length :: ts =>
      match map_lengthM (length : Int) with
      | .error e => .error e
      | .ok (lenCode, lenBits, lenVal) =>
          match map_distanceM (dist : Int) with
          | .error e => .error e
          | .ok (distCode, distBits, distVal) =>
              match mapTokens ts with
              | .error e => .error e
              | .ok (syms, dists, symEx, distEx) =>
                  .ok ((lenCode : Int) :: syms, (distCode : Int) :: dists,
                    (lenBits, lenVal) :: symEx, (distBits, distVal) :: distEx)

/-- Embedding of LZ77.compress with deflate=True (LZ77.py): tokenize,
map the tokens, then append the end-of-block marker 256 to the symbol
list with empty extra bits. -/
def compressDeflateM (h : List Nat → Nat) (windowSize : Nat) (data : List Nat) :
    Except String (List Int × List Int × List (Nat × Int) × List (Nat × Int)) :=
  match mapTokens (tokenizeM h windowSize data) with
  | .error e => .error e
  | .ok (syms, dists, symEx, distEx) =>
      .ok (syms ++ [256], dists, symEx ++ [(0, 0)], distEx)

/-! ## Deflate.compress block accumulation (src/deflate.py) -/

/-- One block dictionary of Deflate.compress: its symbols, the values
taken from the variable length_extra_bits, and the distance entries. -/
structure EncBlock where
  symbols : List Int
  length_extra : List Int
  distances : List (Nat × Int)
  dist_extra : List (Nat × Int)
deriving DecidableEq, Repr

/-- Python list indexing: IndexError when out of range. -/
def listIndex {α : Type} (l : List α) (i : Nat) : Except String α :=
  match l[i]? with
  | some a => .ok a
  | none => .error ("IndexError: list index out of range")

/-- The block accumulation loop of Deflate.compress (src/deflate.py,
the for-loop over symbol_list): fuel is the number of remaining
iterations. -/
def accumBlocksGo (symbol_list : List Int) (length_extra_bits : List Int)
    (distance_list distance_extra_bits : List (Nat × Int)) :
    Nat → Nat → EncBlock → List EncBlock → Except String (List EncBlock)
  | 0, _, _, acc => .ok acc
  | fuel + 1, i, current, acc =>
      if i < symbol_list.length then
        match listIndex symbol_list i with
        | .error e => .error e
        | .ok sym =>
            match listIndex length_extra_bits i with
            | .error e => .error e
            | .ok le =>
                let cur1 : EncBlock :=
                  ⟨current.symbols ++ [sym], current.length_extra ++ [le],
                    current.distances, current.dist_extra⟩
                let step : Except String EncBlock :=
                  if 257 ≤ sym ∧ sym ≤ 285 then
                    match listIndex distance_list cur1.distances.length with
                    | .error e => .error e
                    | .ok d =>
                        match listIndex distance_extra_bits cur1.dist_extra.length with
                        | .error e => .error e
                        | .ok de =>
                            .ok ⟨cur1.symbols, cur1.length_extra,
                              cur1.distances ++ [d], cur1.dist_extra ++ [de]⟩
                  else .ok cur1
                match step with
                | .error e => .error e
                | .ok cur2 =>
                    if cur2.symbols.length ≥ 16384 ∨ i = symbol_list.length - 1 then
                      accumBlocksGo symbol_list length_extra_bits distance_list
                        distance_extra_bits fuel (i + 1) ⟨[], [], [], []⟩ (acc ++ [cur2])
                    else
                      accumBlocksGo symbol_list length_extra_bits distance_list
                        distance_extra_bits fuel (i + 1) cur2 acc
      else .ok acc

/-- The first two stages of Deflate.compress (src/deflate.py): run
LZ77.compress (deflate branch, LZ77.py), bind its quadruple
positionally as (symbol_list, length_extra_bits, distance_list,
distance_extra_bits) exactly as in the source, then accumulate the
blocks. LZ77.compress actually returns the distance codes as the
second component and the per-symbol extra bits as the third. -/
def deflateCompressBlocks (h : List Nat → Nat) (data : List Nat) :
    Except String (List EncBlock) :=
  match compressDeflateM h 32768 data with
  | .error e => .error e
  | .ok (symbol_list, length_extra_bits, distance_list, distance_extra_bits) =>
      accumBlocksGo symbol_list length_extra_bits distance_list distance_extra_bits
        symbol_list.length 0 ⟨[], [], [], []⟩ []

/-! ## Huffman tree construction and canonical codes
(huffman_coding.py, deflate.py) -/

/-- Node of the Huffman merge tree (class Node): a leaf holds a symbol
value, an internal node its two children; both carry a frequency. -/
inductive HNode where
  | leaf (value : Nat) (freq : Nat)
  | node (l r : HNode) (freq : Nat)
deriving DecidableEq, Repr

/-- The frequency of a node (attribute val_freq). -/
def HNode.frequency : HNode → Nat
  | .leaf _ f => f
  | .node _ _ f => f

/-- Model of heapq.heappop under the frequency-only comparison of
Node.__lt__: remove the first node of minimal frequency, keeping the
order of the others. -/
def popMin : List HNode → Option (HNode × List HNode)
  | [] => none
  | n :: ns =>
      if ns.all (fun m => n.frequency ≤ m.frequency) then some (n, ns)
      else
        match popMin ns with
        | some (m, rest) => some (m, n :: rest)
        | none => some (n, ns)

/-- The merge loop of build_from_freq: while more than one node
remains, pop the two lowest-frequency nodes and push their merged
parent. The fuel is the number of merges left; the initial node count
suffices since each merge removes one node. -/
def buildTreeAux : Nat → List HNode → Option HNode
  | _, [] => none
  | _, [t] => some t
  | 0, _ => none
  | fuel + 1, ts =>
      match popMin ts with
      | none => none
      | some (l, ts1) =>
          match popMin ts1 with
          | none => none
          | some (r, ts2) =>
              buildTreeAux fuel (ts2 ++ [HNode.node l r (l.frequency + r.frequency)])

/-- Embedding of HuffmanTree.build_from_freq: leaves from the
frequency dictionary in insertion order, then the merge loop; none
models the IndexError taking tree.nodes[0] of an empty heap. -/
def build_from_freq (freqs : List (Nat × Nat)) : Option HNode :=
  buildTreeAux freqs.length (freqs.map (fun p => HNode.leaf p.1 p.2))

/-- Embedding of codes_generation: preorder traversal collecting the
code string (false = left branch 0, true = right branch 1) of every
leaf. -/
def codes_generation : HNode → List Bool → List (Nat × List Bool)
  | .leaf v _, curr => [(v, curr)]
  | .node l r _, curr =>
      codes_generation l (curr ++ [false]) ++ codes_generation r (curr ++ [true])

/-- The (symbol, length) pairs make_canonical derives from
res_codes. -/
def resLengths (codes : List (Nat × List Bool)) : List (Nat × Nat) :=
  codes.map (fun p => (p.1, p.2.length))

/-- One insertion step of sorting (symbol, length) pairs by the key
(length, symbol), as lengths.sort does in make_canonical. -/
def insertLS (p : Nat × Nat) : List (Nat × Nat) → List (Nat × Nat)
  | [] => [p]
  | q :: qs =>
      if p.2 < q.2 ∨ (p.2 = q.2 ∧ p.1 < q.1) then p :: q :: qs
      else q :: insertLS p qs

/-- Sort (symbol, length) pairs by (length, symbol) ascending. -/
def sortLS : List (Nat × Nat) → List (Nat × Nat)
  | [] => []
  | p :: ps => insertLS p (sortLS ps)

/-- One insertion step of the plain lexicographic sort of
(length, symbol) pairs used by _build_huffman_tree_from_lengths. -/
def insertLex (p : Nat × Nat) : List (Nat × Nat) → List (Nat × Nat)
  | [] => [p]
  | q :: qs =>
      if p.1 < q.1 ∨ (p.1 = q.1 ∧ p.2 < q.2) then p :: q :: qs
      else q :: insertLex p qs

/-- Lexicographic sort of (length, symbol) pairs. -/
def sortLex : List (Nat × Nat) → List (Nat × Nat)
  | [] => []
  | p :: ps => insertLex p (sortLex ps)

/-- The canonical assignment loop of make_canonical: left-shift the
running code by each length increase, record (symbol, code, length),
then increment. -/
def canonAssign : List (Nat × Nat) → Nat → Nat → List (Nat × Nat × Nat)
  | [], _, _ => []
  | (sym, length) :: rest, code, prev_len =>
      let code1 := code <<< (length - prev_len)
      (sym, code1, length) :: canonAssign rest (code1 + 1) length

/-- The canonical table built by make_canonical from (symbol, length)
pairs; none models the IndexError reading lengths[0] of an empty
res_codes. -/
def make_canonical_lengths (pairs : List (Nat × Nat)) :
    Option (List (Nat × Nat × Nat)) :=
  match sortLS pairs with
  | [] => none
  | (s0, l0) :: rest => some (canonAssign ((s0, l0) :: rest) 0 l0)

/-- Embedding of HuffmanTree.make_canonical: canonical (code, length)
assignment for each symbol of res_codes. -/
def make_canonical (codes : List (Nat × List Bool)) :
    Option (List (Nat × Nat × Nat)) :=
  make_canonical_lengths (resLengths codes)

/-- The canonical assignment loop of _build_huffman_tree_from_lengths,
producing decode entries ((length, code), symbol). -/
def canonAssignDec : List (Nat × Nat) → Nat → Nat → List ((Nat × Nat) × Nat)
  | [], _, _ => []
  | (length, sym) :: rest, code, cur_len =>
      let code1 := code <<< (length - cur_len)
      ((length, code1), sym) :: canonAssignDec rest (code1 + 1) length

/-- The (length, symbol) pairs with positive length enumerated from an
ordered code length list (the decoder side). -/
def decPairs (lengths : List Nat) : List (Nat × Nat) :=
  lengths.enum.filterMap (fun p => if p.2 > 0 then some (p.2, p.1) else none)

/-- The (symbol, length) pairs with positive length enumerated from an
ordered code length list (the encoder side seeded with the same
lengths). -/
def encPairs (lengths : List Nat) : List (Nat × Nat) :=
  lengths.enum.filterMap (fun p => if p.2 > 0 then some (p.1, p.2) else none)

/-- Embedding of Deflate._build_huffman_tree_from_lengths
(src/deflate.py and algorithms/deflate.py, identical): the canonical
decode table reconstructed from the ordered list of code lengths
alone. -/
def build_huffman_tree_from_lengths (lengths : List Nat) : List ((Nat × Nat) × Nat) :=
  match sortLex (decPairs lengths) with
  | [] => []
  | (l0, s0) :: rest => canonAssignDec ((l0, s0) :: rest) 0 l0

/-! ## Stored block handling (src/deflate.py and
algorithms/deflate.py) -/

/-- The payload copy loop of _decompress_uncompressed_block: LEN bytes
read and appended to the output buffer. -/
def copyBytes : Nat → BitReader → List Nat → Except String (BitReader × List Nat)
  | 0, br, out => .ok (br, out)
  | n + 1, br, out =>
      match br.read_bits_lsb 8 with
      | .error e => .error e
      | .ok (byte, br1) => copyBytes n br1 (out ++ [byte])

/-- Embedding of Deflate._decompress_uncompressed_block
(src/deflate.py): byte-align, read LEN and NLEN, validate the
complement (ValueError on mismatch, raised before any payload byte is
appended), then copy LEN bytes to the output buffer. -/
def decompress_uncompressed_block (br : BitReader) (out : List Nat) :
    Except String (BitReader × List Nat) :=
  match br.byte_align.read_bits_lsb 16 with
  | .error e => .error e
  | .ok (len_bytes, br1) =>
      match br1.read_bits_lsb 16 with
      | .error e => .error e
      | .ok (nlen_bytes, br2) =>
          if len_bytes + nlen_bytes ≠ 0xFFFF then
            .error ("ValueError: wrong complement for uncompressed block")
          else
            copyBytes len_bytes br2 out

/-- The skip loop of the BTYPE=00 branch of Deflate.decompress_file
(algorithms/deflate.py): LEN bytes read and discarded. -/
def skipBytes : Nat → BitReader → Except String BitReader
  | 0, br => .ok br
  | n + 1, br =>
      match br.read_bits_lsb 8 with
      | .error e => .error e
      | .ok (_, br1) => skipBytes n br1

/-- Embedding of the BTYPE=00 branch of Deflate.decompress_file
(algorithms/deflate.py lines 309-320): byte-align, read LEN and NLEN,
then skip the payload; no complement validation and no error. -/
def stored_block_skip (br : BitReader) : Except String BitReader :=
  match br.byte_align.read_bits_lsb 16 with
  | .error e => .error e
  | .ok (len_bytes, br1) =>
      match br1.read_bits_lsb 16 with
      | .error e => .error e
      | .ok (_, br2) => skipBytes len_bytes br2

/-! ## Concrete inputs used by counterexamples and witnesses -/

/-- A concrete injective stand-in for the Python hash function on
trigram byte strings. -/
def trigramKey (l : List Nat) : Nat :=
  l.foldl (fun a b => a * 256 + b % 256) 0

/-- Input bytes for the tie-breaking scenario: the trigram abc occurs
at positions 0, 8 and 12; both stored candidates 0 and 8 match the
occurrence at 12 for exactly 3 bytes. -/
def c7data : List Nat :=
  [97, 98, 99, 113, 97, 98, 119, 113, 97, 98, 99, 122, 97, 98, 99]

/-- One find_match call viewed as a hash table transformer, for
replaying the table state of a tokenize run. -/
def stepT (cp : Nat) (tbl : Nat → List Nat) : Nat → List Nat :=
  (find_match trigramKey 32768 c7data cp tbl).2

/-- The hash table state just before the final find_match call of the
tokenize run on c7data (calls happen at token starts
0, 1, 2, 3, 4, 5, 6, 7, 10, 11). -/
def tblC7 : Nat → List Nat :=
  stepT 11 (stepT 10 (stepT 7 (stepT 6 (stepT 5 (stepT 4 (stepT 3
    (stepT 2 (stepT 1 (stepT 0 (fun _ => []))))))))))

/-- A 17-symbol frequency histogram with power-of-two frequencies:
the Huffman merge chain gives the two rarest symbols depth 16. -/
def c4freqs : List (Nat × Nat) :=
  (List.range 17).map (fun k => (k, 2 ^ k))

/-- The canonical table the encoder path derives from c4freqs. -/
def c4table : Option (List (Nat × Nat × Nat)) :=
  (build_from_freq c4freqs).bind (fun t => make_canonical (codes_generation t []))

/-- Gap-freeness of a (code, base, extra bits) table: each base is at
most the previous base plus its range width, so the ranges leave no
hole. -/
def chainedAdj : List (Nat × Int × Nat) → Bool
  | a :: b :: rest =>
      decide (b.2.1 ≤ a.2.1 + ((1 <<< a.2.2 : Nat) : Int)) && chainedAdj (b :: rest)
  | _ => true

/-! ## Theorems -/

/-- Disjoint bitwise or is addition: when a is below 2^i, or-ing in a
value shifted left by i adds it. -/
theorem lor_shiftLeft_eq_add {a : Nat} (c i : Nat) (ha : a < 2 ^ i) :
    a ||| (c <<< i) = c <<< i + a := by
  apply Nat.eq_of_testBit_eq
  intro j
  rw [Nat.testBit_or, Nat.shiftLeft_eq, Nat.mul_comm c (2 ^ i),
    Nat.testBit_mul_pow_two_add c ha j, Nat.testBit_mul_pow_two]
  by_cases h : j < i
  · simp [h, Nat.not_le.mpr h]
  · have hij : i ≤ j := Nat.not_lt.mp h
    have : a < 2 ^ j := lt_of_lt_of_le ha (Nat.pow_le_pow_right (by norm_num) hij)
    simp [h, hij, Nat.testBit_lt_two_pow this]

theorem bit_of_nat_lt_two (b : Nat) (h : b < 2) (c : Nat) :
    b ||| (c <<< 1) = c <<< 1 + b :=
  lor_shiftLeft_eq_add c 1 (by simpa using h)

/-- The LSB accumulation loop reconstructs v mod 2^n from a stream
segment holding the LSB-first bits of v. -/
theorem lsbFold_spec (n : Nat) : ∀ (bits : List Bool) (pos i val v : Nat),
    val < 2 ^ i →
    (∀ j < n, bits.getD (pos + j) false = ((v >>> j) &&& 1 == 1)) →
    lsbFold bits pos n i val = val + (v % 2 ^ n) * 2 ^ i := by
  induction n with
  | zero => intro bits pos i val v _ _; simp [lsbFold, Nat.mod_one]
  | succ n ih =>
    intro bits pos i val v hval hbits
    have hb0 : bits.getD pos false = ((v >>> 0) &&& 1 == 1) := by
      have := hbits 0 (Nat.succ_pos n); simpa using this
    have hbit : (if bits.getD pos false then 1 else 0) = v % 2 := by
      rw [hb0]
      rcases Nat.mod_two_eq_zero_or_one v with h | h <;>
        simp [Nat.shiftRight_zero, Nat.and_one_is_mod, h]
    have hrest : ∀ j < n, bits.getD (pos + 1 + j) false = (((v >>> 1) >>> j) &&& 1 == 1) := by
      intro j hj
      have := hbits (j + 1) (Nat.succ_lt_succ hj)
      rw [Nat.add_comm j 1, ← Nat.add_assoc] at this
      rw [this, Nat.shiftRight_add v 1 j]
    have hstep : val ||| ((if bits.getD pos false then 1 else 0) <<< i)
        = val + (v % 2) * 2 ^ i := by
      rw [lor_shiftLeft_eq_add _ i hval, hbit, Nat.shiftLeft_eq, Nat.add_comm]
    have hval' : val + (v % 2) * 2 ^ i < 2 ^ (i + 1) := by
      have h2 : v % 2 ≤ 1 := Nat.le_of_lt_succ (Nat.mod_lt v (by norm_num))
      have : (v % 2) * 2 ^ i ≤ 2 ^ i := by
        calc (v % 2) * 2 ^ i ≤ 1 * 2 ^ i := Nat.mul_le_mul_right _ h2
        _ = 2 ^ i := Nat.one_mul _
      have := Nat.add_lt_add_of_lt_of_le hval this
      simpa [Nat.pow_succ, Nat.mul_two] using this
    rw [lsbFold, hstep, ih bits (pos + 1) (i + 1) _ (v >>> 1) hval' hrest]
    have hmod : v % 2 ^ (n + 1) = v % 2 + 2 * (v / 2 % 2 ^ n) := by
      rw [Nat.pow_succ, Nat.mul_comm (2 ^ n) 2, Nat.mod_mul]
    rw [Nat.shiftRight_one, hmod]
    ring

/-- The MSB accumulation loop reconstructs v mod 2^n from a stream
segment holding the MSB-first bits of v. -/
theorem msbFold_spec (n : Nat) : ∀ (bits : List Bool) (pos val v : Nat),
    (∀ j < n, bits.getD (pos + j) false = ((v >>> (n - 1 - j)) &&& 1 == 1)) →
    msbFold bits pos n val = val * 2 ^ n + v % 2 ^ n := by
  induction n with
  | zero => intro bits pos val v _; simp [msbFold, Nat.mod_one]
  | succ n ih =>
    intro bits pos val v hbits
    have hb0 : bits.getD pos false = ((v >>> n) &&& 1 == 1) := by
      have := hbits 0 (Nat.succ_pos n); simpa using this
    have hbit : (if bits.getD pos false then 1 else 0) = v / 2 ^ n % 2 := by
      rw [hb0, Nat.shiftRight_eq_div_pow, Nat.and_one_is_mod]
      rcases Nat.mod_two_eq_zero_or_one (v / 2 ^ n) with h | h <;> simp [h]
    have hrest : ∀ j < n, bits.getD (pos + 1 + j) false = ((v >>> (n - 1 - j)) &&& 1 == 1) := by
      intro j hj
      have h := hbits (j + 1) (Nat.succ_lt_succ hj)
      have hpos : pos + (j + 1) = pos + 1 + j := by omega
      have hidx : n + 1 - 1 - (j + 1) = n - 1 - j := by omega
      rw [hpos, hidx] at h
      exact h
    have hstep : (val <<< 1) ||| (if bits.getD pos false then 1 else 0)
        = 2 * val + v / 2 ^ n % 2 := by
      have hlt : (if bits.getD pos false then 1 else 0) < 2 := by
        split <;> norm_num
      rw [Nat.lor_comm, bit_of_nat_lt_two _ hlt val, hbit, Nat.shiftLeft_eq]
      ring
    rw [msbFold, hstep, ih bits (pos + 1) _ v hrest]
    have hmod : v % 2 ^ (n + 1) = v % 2 ^ n + 2 ^ n * (v / 2 ^ n % 2) := by
      rw [Nat.pow_succ, Nat.mod_mul]
    rw [hmod]
    ring

theorem write_bits_lsb_getD (v n j : Nat) (hj : j < n) :
    (write_bits_lsb v n).getD j false = ((v >>> j) &&& 1 == 1) := by
  simp [write_bits_lsb, List.getD, List.getElem?_map, List.getElem?_range hj]

theorem write_bits_msb_getD (v n j : Nat) (hj : j < n) :
    (write_bits_msb v n).getD j false = ((v >>> (n - 1 - j)) &&& 1 == 1) := by
  have h0 : (List.range n).reverse[j]? = some (n - 1 - j) := by
    rw [List.getElem?_reverse (by simpa using hj)]
    simp [List.getElem?_range (by omega : n - 1 - j < n)]
  have h1 : ((List.range n).reverse.map fun i => (v >>> i) &&& 1 == 1)[j]?
      = some ((v >>> (n - 1 - j)) &&& 1 == 1) := by
    rw [List.getElem?_map, h0]
    rfl
  rw [write_bits_msb, List.getD, List.get?_eq_getElem?, h1]
  rfl

theorem write_bits_lsb_length (v n : Nat) : (write_bits_lsb v n).length = n := by
  simp [write_bits_lsb]

theorem write_bits_msb_length (v n : Nat) : (write_bits_msb v n).length = n := by
  simp [write_bits_msb]

theorem getD_append_left {l l' : List Bool} {j : Nat} (h : j < l.length) :
    (l ++ l').getD j false = l.getD j false := by
  simp [List.getD, List.getElem?_append, h]

theorem getD_append_right_of_le {l l' : List Bool} {j : Nat} (h : l.length ≤ j) :
    (l ++ l').getD j false = l'.getD (j - l.length) false := by
  simp [List.getD, List.getElem?_append_right h]

/-- Reading back the LSB-written bits of v from the position where the
writer appended them yields v (helper shared by several claims). -/
theorem read_write_lsb (pre : List Bool) (v n : Nat) (hv : v < 2 ^ n) :
    BitReader.read_bits_lsb ⟨pre ++ write_bits_lsb v n, pre.length⟩ n
      = .ok (v, ⟨pre ++ write_bits_lsb v n, pre.length + n⟩) := by
  have hlen : (pre ++ write_bits_lsb v n).length = pre.length + n := by
    simp [write_bits_lsb_length]
  have hbits : ∀ j < n,
      (pre ++ write_bits_lsb v n).getD (pre.length + j) false = ((v >>> j) &&& 1 == 1) := by
    intro j hj
    rw [getD_append_right_of_le (Nat.le_add_right _ _), Nat.add_sub_cancel_left,
      write_bits_lsb_getD v n j hj]
  have hfold := lsbFold_spec n (pre ++ write_bits_lsb v n) pre.length 0 0 v (by norm_num) hbits
  simp only [BitReader.read_bits_lsb, hlen]
  rw [if_neg (by omega), hfold, Nat.mod_eq_of_lt hv]
  simp

/-- Reading back the MSB-written bits of v from the position where the
writer appended them yields v (helper shared by several claims). -/
theorem read_write_msb (pre : List Bool) (v n : Nat) (hv : v < 2 ^ n) :
    BitReader.read_bits_msb ⟨pre ++ write_bits_msb v n, pre.length⟩ n
      = .ok (v, ⟨pre ++ write_bits_msb v n, pre.length + n⟩) := by
  have hlen : (pre ++ write_bits_msb v n).length = pre.length + n := by
    simp [write_bits_msb_length]
  have hbits : ∀ j < n,
      (pre ++ write_bits_msb v n).getD (pre.length + j) false
        = ((v >>> (n - 1 - j)) &&& 1 == 1) := by
    intro j hj
    rw [getD_append_right_of_le (Nat.le_add_right _ _), Nat.add_sub_cancel_left,
      write_bits_msb_getD v n j hj]
  have hfold := msbFold_spec n (pre ++ write_bits_msb v n) pre.length 0 v hbits
  simp only [BitReader.read_bits_msb, hlen]
  rw [if_neg (by omega), hfold, Nat.mod_eq_of_lt hv]
  simp

/-- C9: for every bit count n and every value v with 0 <= v < 2^n,
writing v with write_bits_lsb and reading those n bits back with
read_bits_lsb from the same position returns v, and likewise for the
MSB-first pair write_bits_msb / read_bits_msb. -/
theorem c9_bit_io_roundtrip (pre : List Bool) (v n : Nat) (hv : v < 2 ^ n) :
    BitReader.read_bits_lsb ⟨pre ++ write_bits_lsb v n, pre.length⟩ n
        = .ok (v, ⟨pre ++ write_bits_lsb v n, pre.length + n⟩)
    ∧ BitReader.read_bits_msb ⟨pre ++ write_bits_msb v n, pre.length⟩ n
        = .ok (v, ⟨pre ++ write_bits_msb v n, pre.length + n⟩) :=
  ⟨read_write_lsb pre v n hv, read_write_msb pre v n hv⟩

/-- Witness for C9 at v = 5, n = 3 on an empty stream prefix. -/
theorem c9_bit_io_roundtrip_witness :
    BitReader.read_bits_lsb ⟨[] ++ write_bits_lsb 5 3, 0⟩ 3
        = .ok (5, ⟨[] ++ write_bits_lsb 5 3, 0 + 3⟩)
    ∧ BitReader.read_bits_msb ⟨[] ++ write_bits_msb 5 3, 0⟩ 3
        = .ok (5, ⟨[] ++ write_bits_msb 5 3, 0 + 3⟩) := by
  have h := c9_bit_io_roundtrip [] 5 3 (by norm_num)
  simpa using h

/-- Folding CRC32.update over a list of chunks equals one update over
their concatenation. -/
theorem crcUpdate_join (chunks : List (List Nat)) : ∀ crc : Nat,
    chunks.foldl crcUpdate crc = crcUpdate crc chunks.flatten := by
  induction chunks with
  | nil => intro crc; simp [crcUpdate]
  | cons c cs ih =>
    intro crc
    rw [List.foldl_cons, ih (crcUpdate crc c)]
    simp [crcUpdate, List.foldl_append]

/-- C10: for every byte sequence and every partition of it into
consecutive chunks, feeding the chunks to CRC32.update one after
another yields the same get_value as a single CRC32.calculate over the
whole sequence, so the checksum does not depend on the chunking. -/
theorem c10_crc_chunking_independent (chunks : List (List Nat)) :
    crcGetValue (chunks.foldl crcUpdate crcInit) = crcCalculate chunks.flatten := by
  rw [crcCalculate, crcUpdate_join chunks crcInit]

/-- The reversed table scan raises exactly when the value is below
every base in the table. -/
theorem mapScanRev_toOption_none_iff (t : List (Nat × Int × Nat)) (e : String)
    (v : Int) : (mapScanRev t e v).toOption = none ↔ ∀ p ∈ t, v < p.2.1 := by
  induction t with
  | nil => simp [mapScanRev, Except.toOption]
  | cons hd tl ih =>
    obtain ⟨c, b, k⟩ := hd
    by_cases h : v ≥ b
    · rw [mapScanRev, if_pos h]
      simp only [Except.toOption, List.forall_mem_cons]
      constructor
      · intro habs; cases habs
      · intro habs; exact absurd habs.1 (not_lt.mpr h)
    · rw [mapScanRev, if_neg h]
      rw [ih, List.forall_mem_cons]
      constructor
      · intro htl; exact ⟨not_le.mp h, htl⟩
      · intro hand; exact hand.2

/-- The reversed scan of a table ending in entry p returns p when the
value reaches its base. -/
theorem mapScanRev_last (l : List (Nat × Int × Nat)) (p : Nat × Int × Nat)
    (e : String) (v : Int) (hv : v ≥ p.2.1) :
    mapScanRev (l ++ [p]).reverse e v = .ok (p.1, p.2.2, v - p.2.1) := by
  obtain ⟨c, b, k⟩ := p
  rw [List.reverse_append]
  simp only [List.reverse_cons, List.reverse_nil, List.nil_append, List.cons_append,
    List.nil_append]
  rw [mapScanRev]
  exact if_pos hv

/-- C6 (amended): the map functions of LZ77.py raise a range error
exactly for inputs below the minimum (length below 3, distance below
1); inputs above the maximum are not rejected: LZ77.py returns the
last code with an oversized extra value, and the LZ77_deflate.py
variants never raise at all. -/
theorem c6_range_error_only_below_min :
    (∀ v : Int, (map_lengthM v).toOption = none ↔ v < 3)
    ∧ (∀ v : Int, (map_distanceM v).toOption = none ↔ v < 1)
    ∧ (∀ v : Int, 258 < v → map_lengthM v = .ok (285, 0, v - 258))
    ∧ (∀ v : Int, 32768 < v → map_distanceM v = .ok (29, 13, v - 24577)) := by
  have hlsplit : length_table.dropLast ++ [((285 : Nat), (258 : Int), (0 : Nat))]
      = length_table := by
    have h := List.dropLast_append_getLast (by decide : length_table ≠ [])
    rwa [show length_table.getLast (by decide) = ((285 : Nat), (258 : Int), (0 : Nat))
      from by decide] at h
  have hdsplit : distance_table.dropLast ++ [((29 : Nat), (24577 : Int), (13 : Nat))]
      = distance_table := by
    have h := List.dropLast_append_getLast (by decide : distance_table ≠ [])
    rwa [show distance_table.getLast (by decide) = ((29 : Nat), (24577 : Int), (13 : Nat))
      from by decide] at h
  refine ⟨?_, ?_, ?_, ?_⟩
  · intro v
    rw [map_lengthM, mapScanRev_toOption_none_iff]
    constructor
    · intro hall
      have h3 : ((257 : Nat), (3 : Int), (0 : Nat)) ∈ length_table.reverse := by decide
      have := hall _ h3
      simpa using this
    · intro hv p hp
      rw [List.mem_reverse] at hp
      have hge : ∀ q ∈ length_table, (3 : Int) ≤ q.2.1 := by decide
      have := hge p hp
      omega
  · intro v
    rw [map_distanceM, mapScanRev_toOption_none_iff]
    constructor
    · intro hall
      have h1 : ((0 : Nat), (1 : Int), (0 : Nat)) ∈ distance_table.reverse := by decide
      have := hall _ h1
      simpa using this
    · intro hv p hp
      rw [List.mem_reverse] at hp
      have hge : ∀ q ∈ distance_table, (1 : Int) ≤ q.2.1 := by decide
      have := hge p hp
      omega
  · intro v hv
    rw [map_lengthM, ← hlsplit,
      mapScanRev_last length_table.dropLast ((285 : Nat), (258 : Int), (0 : Nat)) _ v
        (by simpa using (by omega : (258 : Int) ≤ v))]
  · intro v hv
    rw [map_distanceM, ← hdsplit,
      mapScanRev_last distance_table.dropLast ((29 : Nat), (24577 : Int), (13 : Nat)) _ v
        (by simpa using (by omega : (24577 : Int) ≤ v))]

/-- Witness for C6: length 2 and distance 0 raise, length 300 and
distance 40000 return results. -/
theorem c6_range_error_only_below_min_witness :
    (map_lengthM 2).toOption = none
    ∧ (map_distanceM 0).toOption = none
    ∧ map_lengthM 300 = .ok (285, 0, 42)
    ∧ map_distanceM 40000 = .ok (29, 13, 15423) := by
  refine ⟨(c6_range_error_only_below_min.1 2).mpr (by norm_num),
    (c6_range_error_only_below_min.2.1 0).mpr (by norm_num),
    ?_, ?_⟩
  · have h := c6_range_error_only_below_min.2.2.1 300 (by norm_num)
    simpa using h
  · have h := c6_range_error_only_below_min.2.2.2 40000 (by norm_num)
    simpa using h

/-- C6 counterexample: out-of-range inputs do not fail with a range
error: LZ77_deflate.py returns a code triple for length 2 (extra value
-1), length 300 and distance 0, and LZ77.py returns a result without
error for length 300 and distance 40000. -/
theorem c6_counterexample :
    map_length 2 = (257, 0, -1)
    ∧ map_length 300 = (285, 0, 0)
    ∧ map_distance 0 = (0, 0, -1)
    ∧ map_lengthM 300 = .ok (285, 0, 42)
    ∧ map_distanceM 40000 = .ok (29, 13, 15423) := by
  refine ⟨by decide, by decide, by decide, by decide, by decide⟩

/-- C1 (code bug): Deflate.compress (src/deflate.py) binds the
quadruple returned by LZ77.compress positionally as (symbol_list,
length_extra_bits, distance_list, distance_extra_bits), but
LZ77.compress returns (symbol_list, distance_list,
symbol_extra_bits_list, distance_extra_bits_list); the block
accumulation loop therefore indexes the distance-code list once per
symbol and raises IndexError before any output is written, on every
input. Shown on the single byte 97: the quadruple has two symbols but
an empty second component, and compress fails. -/
theorem c1_compress_crashes :
    compressDeflateM trigramKey 32768 [97] = .ok ([97, 256], [], [(0, 0), (0, 0)], [])
    ∧ deflateCompressBlocks trigramKey [97]
        = .error ("IndexError: list index out of range") := by
  exact ⟨by decide, by decide⟩

/-- C4 (code bug): build_from_freq followed by make_canonical enforces
no code length limit: on the 17-symbol histogram c4freqs the symbols 0
and 1 receive 16-bit codes, above the claimed 15-bit maximum; no
rebalancing logic exists in huffman_coding.py. -/
theorem c4_overlong_code :
    c4table.map (fun T => decide ((0, 65534, 16) ∈ T ∧ (1, 65535, 16) ∈ T))
      = some true := by
  decide

/-- C8 (amended): the block decoder of src/deflate.py fails with a
fatal ValueError on a stored block whose second 16-bit field NLEN is
not the complement of LEN, and no payload byte is appended to the
output buffer (the error is raised before the copy loop); the decoder
of algorithms/deflate.py instead skips stored blocks without any
validation, see the counterexample. -/
theorem c8_stored_block_mismatch_fatal (br : BitReader) (out : List Nat)
    (len nlen : Nat) (br1 br2 : BitReader)
    (h1 : br.byte_align.read_bits_lsb 16 = .ok (len, br1))
    (h2 : br1.read_bits_lsb 16 = .ok (nlen, br2))
    (hbad : len + nlen ≠ 0xFFFF) :
    decompress_uncompressed_block br out
      = .error ("ValueError: wrong complement for uncompressed block") := by
  simp only [decompress_uncompressed_block, h1, h2]
  rw [if_pos hbad]

/-- Witness for C8 at LEN = 1, NLEN = 0 on an aligned empty output. -/
theorem c8_stored_block_mismatch_fatal_witness :
    decompress_uncompressed_block ⟨write_bits_lsb 1 16 ++ write_bits_lsb 0 16, 0⟩ []
      = .error ("ValueError: wrong complement for uncompressed block") :=
  c8_stored_block_mismatch_fatal
    ⟨write_bits_lsb 1 16 ++ write_bits_lsb 0 16, 0⟩ [] 1 0
    ⟨write_bits_lsb 1 16 ++ write_bits_lsb 0 16, 16⟩
    ⟨write_bits_lsb 1 16 ++ write_bits_lsb 0 16, 32⟩
    (by decide) (by decide) (by decide)

/-- C8 counterexample: the decoder of algorithms/deflate.py does not
fail on a stored block whose NLEN is not the complement of LEN: with
LEN = 1, NLEN = 0 and one payload byte it byte-aligns, reads both
fields and skips the payload without raising. -/
theorem c8_counterexample :
    stored_block_skip
        ⟨write_bits_lsb 1 16 ++ write_bits_lsb 0 16 ++ write_bits_lsb 171 8, 0⟩
      = .ok ⟨write_bits_lsb 1 16 ++ write_bits_lsb 0 16 ++ write_bits_lsb 171 8, 40⟩ := by
  decide

/-- The match extension loop never returns more than the lookahead
limit of 258 when started at or below it. -/
theorem matchLenGo_le (data : List Nat) (cand cp : Nat) :
    ∀ rem k, k ≤ 258 → matchLenGo data cand cp rem k ≤ 258 := by
  intro rem
  induction rem with
  | zero => intro k h2; exact h2
  | succ rem ih =>
    intro k h2
    rw [matchLenGo]
    by_cases hc : cp + k < data.length ∧ cand + k < cp ∧ k < 258
        ∧ data.getD (cand + k) 0 = data.getD (cp + k) 0
    · rw [if_pos hc]
      exact ih (k + 1) (by have := hc.2.2.1; omega)
    · rw [if_neg hc]
      exact h2

/-- The match length starting at or below the lookahead limit stays at
or below it. -/
theorem matchLen_le (data : List Nat) (cand cp k : Nat) (hk : k ≤ 258) :
    matchLen data cand cp k ≤ 258 :=
  matchLenGo_le data cand cp (258 - k) k hk

/-- The candidate scan result length never exceeds the lookahead
limit. -/
theorem bestLoop_length_le (data : List Nat) (cp : Nat) :
    ∀ (cs : List Nat) (best : Nat × Nat), best.2 ≤ 258 →
      (bestLoop data cp cs best).2 ≤ 258 := by
  intro cs
  induction cs with
  | nil => intro best h; rw [bestLoop]; exact h
  | cons c rest ih =>
    intro best h
    rw [bestLoop]
    have hml : matchLen data c cp 0 ≤ 258 := matchLen_le data c cp 0 (by omega)
    by_cases h1 : cp - c < 1
    · rw [if_pos h1]; exact ih best h
    · rw [if_neg h1]
      by_cases h2 : matchLen data c cp 0 > best.2
      · rw [if_pos h2]
        by_cases h3 : matchLen data c cp 0 = 258
        · rw [if_pos h3]; exact le_of_eq h3
        · rw [if_neg h3]; exact ih _ hml
      · rw [if_neg h2]; exact ih best h

/-- A match returned by find_match (LZ77_deflate.py) has length between
3 and 258. -/
theorem find_match_some_length (h : List Nat → Nat) (w : Nat) (data : List Nat)
    (cp : Nat) (tbl : Nat → List Nat) (d l : Nat)
    (hfm : (find_match h w data cp tbl).1 = some (d, l)) :
    3 ≤ l ∧ l ≤ 258 := by
  have hbest : (bestLoop data cp (validCandidates h w data cp
      (insertBack h data cp tbl)) (0, 0)).2 ≤ 258 :=
    bestLoop_length_le data cp _ (0, 0) (by norm_num)
  simp only [find_match] at hfm
  split_ifs at hfm with h0 h1 h2 h3 h4 h5 h6 h7
  all_goals simp_all

/-- Every match token emitted by the tokenization loop of
LZ77.compress (deflate branch, LZ77_deflate.py) satisfies the
distance and length invariants. -/
theorem tokenizeAux_match_invariants (h : List Nat → Nat) (w : Nat) (data : List Nat) :
    ∀ (fuel i : Nat) (tbl : Nat → List Nat) (p d l : Nat),
      (p, Token.mtch d l) ∈ tokenizeAux h w data fuel i tbl →
      1 ≤ d ∧ d ≤ w ∧ d ≤ p ∧ 3 ≤ l ∧ l ≤ 258 := by
  intro fuel
  induction fuel with
  | zero => intro i tbl p d l hmem; simp [tokenizeAux] at hmem
  | succ fuel ih =>
    intro i tbl p d l hmem
    rw [tokenizeAux] at hmem
    by_cases hi : i < data.length
    · rw [if_pos hi] at hmem
      rcases hfm : find_match h w data i tbl with ⟨om, tbl1⟩
      rw [hfm] at hmem
      match om with
      | none =>
        dsimp only [] at hmem
        rcases List.mem_cons.mp hmem with heq | hmem'
        · cases heq
        · exact ih (i + 1) tbl1 p d l hmem'
      | some (dist, length) =>
        dsimp only [] at hmem
        by_cases hw : dist > w
        · rw [if_pos hw] at hmem
          rcases List.mem_cons.mp hmem with heq | hmem'
          · cases heq
          · exact ih (i + 1) tbl1 p d l hmem'
        · rw [if_neg hw] at hmem
          by_cases hg : dist > 0 ∧ dist ≤ i
          · rw [if_pos hg] at hmem
            rcases List.mem_cons.mp hmem with heq | hmem'
            · obtain ⟨hp, htok⟩ := Prod.mk.injEq .. ▸ heq
              obtain ⟨hd, hl⟩ := Token.mtch.injEq .. ▸ htok
              subst hp; subst hd; subst hl
              have hlen : 3 ≤ l ∧ l ≤ 258 := by
                apply find_match_some_length h w data p tbl d l
                rw [hfm]
              exact ⟨hg.1, by omega, hg.2, hlen.1, hlen.2⟩
            · exact ih (i + length) tbl1 p d l hmem'
          · rw [if_neg hg] at hmem
            rcases List.mem_cons.mp hmem with heq | hmem'
            · cases heq
            · exact ih (i + 1) tbl1 p d l hmem'
    · rw [if_neg hi] at hmem
      cases hmem

/-- C3: every Match token emitted by the LZ77 tokenizer
(LZ77_deflate.py compress, deflate branch) has length between 3 and
258, distance between 1 and 32768, and distance no greater than the
input position at which it was produced, for every hash function,
window size and input. -/
theorem c3_match_token_invariants (h : List Nat → Nat) (w : Nat) (data : List Nat)
    (p d l : Nat) (hmem : (p, Token.mtch d l) ∈ tokenize h w data) :
    3 ≤ l ∧ l ≤ 258 ∧ 1 ≤ d ∧ d ≤ 32768 ∧ d ≤ p := by
  have hinv := tokenizeAux_match_invariants h (min w 32768) data data.length 0
    (fun _ => []) p d l hmem
  refine ⟨hinv.2.2.2.1, hinv.2.2.2.2, hinv.1, ?_, hinv.2.2.1⟩
  exact le_trans hinv.2.1 (min_le_right w 32768)

/-- Witness for C3: the match token at position 7 of the tokenization
of c7data has distance 4 and length 3 within all bounds. -/
theorem c3_match_token_invariants_witness :
    3 ≤ 3 ∧ 3 ≤ 258 ∧ 1 ≤ 4 ∧ 4 ≤ 32768 ∧ 4 ≤ 7 :=
  c3_match_token_invariants trigramKey 32768 c7data 7 4 3 (by decide)

/-- The candidate scan keeps the first candidate attaining the final
length: the inherited best only improves, survives exactly when
nothing beats it, and every candidate strictly beating the inherited
best and tying the final length sits at distance at most the returned
one. -/
theorem bestLoop_first_max (data : List Nat) (cp : Nat) :
    ∀ (cs : List Nat) (bd bl d l : Nat),
      cs.Pairwise (· < ·) →
      bestLoop data cp cs (bd, bl) = (d, l) →
      bl ≤ l ∧ (l = bl → d = bd)
      ∧ ∀ c ∈ cs, bl < matchLen data c cp 0 → matchLen data c cp 0 = l →
          cp - c ≤ d := by
  intro cs
  induction cs with
  | nil =>
    intro bd bl d l _ hres
    rw [bestLoop] at hres
    obtain ⟨hd, hl⟩ := Prod.mk.injEq .. ▸ hres
    subst hd; subst hl
    exact ⟨le_refl _, fun _ => rfl, fun c hc => absurd hc (List.not_mem_nil c)⟩
  | cons c0 rest ih =>
    intro bd bl d l hpw hres
    obtain ⟨hlt, hpw'⟩ := List.pairwise_cons.mp hpw
    rw [bestLoop] at hres
    dsimp only [] at hres
    by_cases h1 : cp - c0 < 1
    · rw [if_pos h1] at hres
      have IH := ih bd bl d l hpw' hres
      refine ⟨IH.1, IH.2.1, ?_⟩
      intro c hc hbl hml
      rcases List.mem_cons.mp hc with rfl | hc'
      · omega
      · exact IH.2.2 c hc' hbl hml
    · rw [if_neg h1] at hres
      by_cases h2 : matchLen data c0 cp 0 > bl
      · rw [if_pos h2] at hres
        by_cases h3 : matchLen data c0 cp 0 = 258
        · rw [if_pos h3] at hres
          obtain ⟨hd, hl⟩ := Prod.mk.injEq .. ▸ hres
          subst hd; subst hl
          refine ⟨by omega, by omega, ?_⟩
          intro c hc _ _
          rcases List.mem_cons.mp hc with rfl | hc'
          · exact le_refl _
          · exact Nat.sub_le_sub_left (le_of_lt (hlt c hc')) cp
        · rw [if_neg h3] at hres
          have IH := ih (cp - c0) (matchLen data c0 cp 0) d l hpw' hres
          refine ⟨by omega, by omega, ?_⟩
          intro c hc hbl hml
          rcases List.mem_cons.mp hc with rfl | hc'
          · have hdl : d = cp - c := IH.2.1 hml.symm
            omega
          · by_cases hgt : matchLen data c0 cp 0 < matchLen data c cp 0
            · exact IH.2.2 c hc' hgt hml
            · have hle : matchLen data c cp 0 ≤ matchLen data c0 cp 0 := by omega
              have hM0l : matchLen data c0 cp 0 = l := by
                have := IH.1
                omega
              have hdl : d = cp - c0 := IH.2.1 hM0l.symm
              have : cp - c ≤ cp - c0 := Nat.sub_le_sub_left (le_of_lt (hlt c hc')) cp
              omega
      · rw [if_neg h2] at hres
        have IH := ih bd bl d l hpw' hres
        refine ⟨IH.1, IH.2.1, ?_⟩
        intro c hc hbl hml
        rcases List.mem_cons.mp hc with rfl | hc'
        · omega
        · exact IH.2.2 c hc' hbl hml

/-- A match returned by find_match comes from the candidate scan over
the filtered candidate list started at (0, 0). -/
theorem find_match_some_eq_bestLoop (h : List Nat → Nat) (w : Nat) (data : List Nat)
    (cp : Nat) (tbl : Nat → List Nat) (d l : Nat)
    (hfm : (find_match h w data cp tbl).1 = some (d, l)) :
    bestLoop data cp (validCandidates h w data cp (insertBack h data cp tbl)) (0, 0)
      = (d, l) := by
  simp only [find_match] at hfm
  split_ifs at hfm with h0 h1 h2 h3 h4 h5 h6 h7
  all_goals simp_all

/-- C7 (amended): when several stored candidates tie at the maximal
match length, find_match returns the match of the first candidate in
the stored list; since the compressor appends candidates in increasing
position order, that is the candidate with the largest distance, not
the smallest: every tied candidate lies at distance at most the
returned one. -/
theorem c7_tie_breaks_toward_largest_distance (h : List Nat → Nat) (w : Nat)
    (data : List Nat) (cp : Nat) (tbl : Nat → List Nat) (d l : Nat)
    (hasc : (validCandidates h w data cp (insertBack h data cp tbl)).Pairwise (· < ·))
    (hfm : (find_match h w data cp tbl).1 = some (d, l)) :
    3 ≤ l ∧ ∀ c ∈ validCandidates h w data cp (insertBack h data cp tbl),
      matchLen data c cp 0 = l → cp - c ≤ d := by
  have hres := find_match_some_eq_bestLoop h w data cp tbl d l hfm
  have h3l := (find_match_some_length h w data cp tbl d l hfm).1
  have hbl := bestLoop_first_max data cp
    (validCandidates h w data cp (insertBack h data cp tbl)) 0 0 d l hasc hres
  refine ⟨h3l, ?_⟩
  intro c hc hml
  exact hbl.2.2 c hc (by omega) hml

/-- Witness for C7 (amended) on the reachable table state tblC7: the
tied candidates 0 and 8 both have distance at most the returned 12. -/
theorem c7_tie_breaks_toward_largest_distance_witness :
    3 ≤ 3 ∧ ∀ c ∈ validCandidates trigramKey 32768 c7data 12
        (insertBack trigramKey c7data 12 tblC7),
      matchLen c7data c 12 0 = 3 → 12 - c ≤ 12 :=
  c7_tie_breaks_toward_largest_distance trigramKey 32768 c7data 12 tblC7 12 3
    (by decide) (by decide)

/-- The forward table scan on a gap-free table whose first base is at
most the value and which covers the value returns a member entry whose
range contains the value exactly. -/
theorem mapScan_covers : ∀ (t : List (Nat × Int × Nat)) (fb : Nat × Nat × Int) (v : Int),
    chainedAdj t = true →
    (∀ q, t.head? = some q → q.2.1 ≤ v) →
    (∃ p ∈ t, v ≤ p.2.1 + ((1 <<< p.2.2 : Nat) : Int) - 1) →
    ∃ p ∈ t, mapScan t fb v = (p.1, p.2.2, v - p.2.1)
      ∧ p.2.1 ≤ v ∧ v ≤ p.2.1 + ((1 <<< p.2.2 : Nat) : Int) - 1 := by
  intro t
  induction t with
  | nil =>
    intro fb v _ _ hcov
    obtain ⟨p, hp, _⟩ := hcov
    exact absurd hp (List.not_mem_nil p)
  | cons hd rest ih =>
    intro fb v hchain hhead hcov
    obtain ⟨c, b, k⟩ := hd
    by_cases hc : v ≤ b + ((1 <<< k : Nat) : Int) - 1
    · refine ⟨(c, b, k), List.mem_cons_self _ _, ?_, ?_, hc⟩
      · rw [mapScan, if_pos hc]
      · exact hhead (c, b, k) rfl
    · obtain ⟨p, hp, hpcov⟩ := hcov
      have hp' : p ∈ rest := by
        rcases List.mem_cons.mp hp with rfl | hmem
        · exact absurd hpcov hc
        · exact hmem
      have hchain' : chainedAdj rest = true := by
        cases rest with
        | nil => rfl
        | cons r rs =>
            rw [chainedAdj] at hchain
            exact ((Bool.and_eq_true _ _).mp hchain).2
      have hhead' : ∀ q, rest.head? = some q → q.2.1 ≤ v := by
        intro q hq
        cases rest with
        | nil => cases hq
        | cons r rs =>
            rw [chainedAdj] at hchain
            have hrel : r.2.1 ≤ b + ((1 <<< k : Nat) : Int) :=
              of_decide_eq_true ((Bool.and_eq_true _ _).mp hchain).1
            have hqr : r = q := Option.some.inj hq
            subst hqr
            omega
      obtain ⟨p', hp'', hres, hb, hc2⟩ := ih fb v hchain' hhead' ⟨p, hp', hpcov⟩
      refine ⟨p', List.mem_cons_of_mem _ hp'', ?_, hb, hc2⟩
      rw [mapScan, if_neg hc]
      exact hres

/-- The decoder table search of _decode_length reaches exactly the
entry of the requested code when the table codes are distinct. -/
theorem decodeLengthScan_finds : ∀ (t : List (Nat × Int × Nat)) (br : BitReader)
    (p : Nat × Int × Nat), t.Pairwise (fun a b => a.1 ≠ b.1) → p ∈ t →
    decodeLengthScan t br p.1
      = (if p.2.2 > 0 then
          match br.read_bits_lsb p.2.2 with
          | .ok (extra, br1) => .ok (some (p.2.1 + (extra : Int)), br1)
          | .error e => .error e
        else .ok (some p.2.1, br)) := by
  intro t
  induction t with
  | nil => intro br p _ hp; exact absurd hp (List.not_mem_nil p)
  | cons hd rest ih =>
    intro br p hpw hp
    obtain ⟨hne, hpw'⟩ := List.pairwise_cons.mp hpw
    obtain ⟨c, b, k⟩ := hd
    rcases List.mem_cons.mp hp with rfl | hmem
    · rw [decodeLengthScan, if_pos rfl]
    · have hcne : c ≠ p.1 := hne p hmem
      rw [decodeLengthScan, if_neg hcne]
      exact ih br p hpw' hmem

/-- The decoder table search of _decode_distance reaches exactly the
entry of the requested code when the table codes are distinct. -/
theorem decodeDistScan_finds : ∀ (t : List (Nat × Int × Nat)) (br : BitReader)
    (p : Nat × Int × Nat), t.Pairwise (fun a b => a.1 ≠ b.1) → p ∈ t →
    decodeDistScan t br p.1
      = (if p.2.2 > 0 then
          match br.read_bits_lsb p.2.2 with
          | .ok (extra, br1) =>
              if p.2.1 + (extra : Int) > 32768 then
                .error ("ValueError: distance exceeds maximum window size")
              else .ok (some (p.2.1 + (extra : Int)), br1)
          | .error _ => .ok (some p.2.1, br)
        else .ok (some p.2.1, br)) := by
  intro t
  induction t with
  | nil => intro br p _ hp; exact absurd hp (List.not_mem_nil p)
  | cons hd rest ih =>
    intro br p hpw hp
    obtain ⟨hne, hpw'⟩ := List.pairwise_cons.mp hpw
    obtain ⟨c, b, k⟩ := hd
    rcases List.mem_cons.mp hp with rfl | hmem
    · rw [decodeDistScan, if_pos rfl]
    · have hcne : c ≠ p.1 := hne p hmem
      rw [decodeDistScan, if_neg hcne]
      exact ih br p hpw' hmem

/-- C5: for every length L with 3 <= L <= 258, map_length returns
(code, n, e) with 0 <= e < 2^n, and the decoder _decode_length applied
to the code with exactly those n extra bits (written LSB-first)
reconstructs L as base + e; likewise for every distance D with
1 <= D <= 32768 via map_distance and _decode_distance. -/
theorem c5_map_base_plus_extra_roundtrip :
    (∀ v : Int, 3 ≤ v → v ≤ 258 →
      0 ≤ (map_length v).2.2 ∧ (map_length v).2.2 < (2 : Int) ^ (map_length v).2.1
      ∧ decode_length ⟨write_bits_lsb (map_length v).2.2.toNat (map_length v).2.1, 0⟩
            (map_length v).1
          = .ok (some v,
              ⟨write_bits_lsb (map_length v).2.2.toNat (map_length v).2.1,
                (map_length v).2.1⟩))
    ∧ (∀ v : Int, 1 ≤ v → v ≤ 32768 →
      0 ≤ (map_distance v).2.2 ∧ (map_distance v).2.2 < (2 : Int) ^ (map_distance v).2.1
      ∧ decode_distance ⟨write_bits_lsb (map_distance v).2.2.toNat (map_distance v).2.1, 0⟩
            (map_distance v).1
          = .ok (some v,
              ⟨write_bits_lsb (map_distance v).2.2.toNat (map_distance v).2.1,
                (map_distance v).2.1⟩)) := by
  constructor
  · intro v h3 h258
    have hhead : ∀ q, length_table.head? = some q → q.2.1 ≤ v := by
      intro q hq
      have hq' : q = ((257 : Nat), (3 : Int), (0 : Nat)) := (Option.some.inj hq).symm
      rw [hq']
      exact h3
    have hcov : ∃ p ∈ length_table, v ≤ p.2.1 + ((1 <<< p.2.2 : Nat) : Int) - 1 := by
      refine ⟨((284 : Nat), (227 : Int), (5 : Nat)), by decide, ?_⟩
      show v ≤ 227 + ((1 <<< 5 : Nat) : Int) - 1
      rw [show ((1 <<< 5 : Nat) : Int) = 32 from by decide]
      omega
    obtain ⟨p, hp, hres, hbase, hcovp⟩ :=
      mapScan_covers length_table (285, 0, 0) v (by decide) hhead hcov
    have hmap : map_length v = (p.1, p.2.2, v - p.2.1) := hres
    have hpow : ((1 <<< p.2.2 : Nat) : Int) = ((2 ^ p.2.2 : Nat) : Int) := by
      rw [Nat.shiftLeft_eq, one_mul]
    have hEnn : (0 : Int) ≤ v - p.2.1 := by omega
    have hElt : v - p.2.1 < ((2 ^ p.2.2 : Nat) : Int) := by
      rw [← hpow]; omega
    have hEltN : (v - p.2.1).toNat < 2 ^ p.2.2 := (Int.toNat_lt hEnn).mpr hElt
    rw [hmap]
    refine ⟨hEnn, ?_, ?_⟩
    · have h2 := hElt
      push_cast at h2
      exact h2
    · have hnr : ¬(p.1 < 257 ∨ p.1 > 285) := by
        have hall : ∀ q ∈ length_table, 257 ≤ q.1 ∧ q.1 ≤ 285 := by decide
        have := hall p hp
        omega
      rw [decode_length, if_neg hnr,
        decodeLengthScan_finds length_table _ p (by decide) hp]
      by_cases hk : p.2.2 > 0
      · rw [if_pos hk]
        have hread := read_write_lsb [] (v - p.2.1).toNat p.2.2 hEltN
        simp only [List.nil_append, List.length_nil, Nat.zero_add] at hread
        rw [hread]
        dsimp only []
        rw [Int.toNat_of_nonneg hEnn,
          show p.2.1 + (v - p.2.1) = v from by ring]
      · rw [if_neg hk]
        have hk0 : p.2.2 = 0 := by omega
        have hv : p.2.1 = v := by
          rw [hk0] at hElt
          rw [show ((2 ^ 0 : Nat) : Int) = 1 from by decide] at hElt
          omega
        rw [hv, hk0]
  · intro v h1 h32768
    have hhead : ∀ q, distance_table.head? = some q → q.2.1 ≤ v := by
      intro q hq
      have hq' : q = ((0 : Nat), (1 : Int), (0 : Nat)) := (Option.some.inj hq).symm
      rw [hq']
      exact h1
    have hcov : ∃ p ∈ distance_table, v ≤ p.2.1 + ((1 <<< p.2.2 : Nat) : Int) - 1 := by
      refine ⟨((29 : Nat), (24577 : Int), (13 : Nat)), by decide, ?_⟩
      show v ≤ 24577 + ((1 <<< 13 : Nat) : Int) - 1
      rw [show ((1 <<< 13 : Nat) : Int) = 8192 from by decide]
      omega
    obtain ⟨p, hp, hres, hbase, hcovp⟩ :=
      mapScan_covers distance_table (29, 13, v - 24577) v (by decide) hhead hcov
    have hmap : map_distance v = (p.1, p.2.2, v - p.2.1) := hres
    have hpow : ((1 <<< p.2.2 : Nat) : Int) = ((2 ^ p.2.2 : Nat) : Int) := by
      rw [Nat.shiftLeft_eq, one_mul]
    have hEnn : (0 : Int) ≤ v - p.2.1 := by omega
    have hElt : v - p.2.1 < ((2 ^ p.2.2 : Nat) : Int) := by
      rw [← hpow]; omega
    have hEltN : (v - p.2.1).toNat < 2 ^ p.2.2 := (Int.toNat_lt hEnn).mpr hElt
    rw [hmap]
    refine ⟨hEnn, ?_, ?_⟩
    · have h2 := hElt
      push_cast at h2
      exact h2
    · have hnr : ¬(p.1 > 29) := by
        have hall : ∀ q ∈ distance_table, q.1 ≤ 29 := by decide
        have := hall p hp
        omega
      rw [decode_distance, if_neg hnr,
        decodeDistScan_finds distance_table _ p (by decide) hp]
      by_cases hk : p.2.2 > 0
      · rw [if_pos hk]
        have hread := read_write_lsb [] (v - p.2.1).toNat p.2.2 hEltN
        simp only [List.nil_append, List.length_nil, Nat.zero_add] at hread
        rw [hread]
        dsimp only []
        rw [Int.toNat_of_nonneg hEnn,
          show p.2.1 + (v - p.2.1) = v from by ring]
        rw [if_neg (by omega : ¬(v > 32768))]
      · rw [if_neg hk]
        have hk0 : p.2.2 = 0 := by omega
        have hv : p.2.1 = v := by
          rw [hk0] at hElt
          rw [show ((2 ^ 0 : Nat) : Int) = 1 from by decide] at hElt
          omega
        rw [hv, hk0]

/-- Witness for C5 at length 10 and distance 100. -/
theorem c5_map_base_plus_extra_roundtrip_witness :
    (0 ≤ (map_length 10).2.2 ∧ (map_length 10).2.2 < (2 : Int) ^ (map_length 10).2.1
      ∧ decode_length ⟨write_bits_lsb (map_length 10).2.2.toNat (map_length 10).2.1, 0⟩
            (map_length 10).1
          = .ok (some 10,
              ⟨write_bits_lsb (map_length 10).2.2.toNat (map_length 10).2.1,
                (map_length 10).2.1⟩))
    ∧ (0 ≤ (map_distance 100).2.2
      ∧ (map_distance 100).2.2 < (2 : Int) ^ (map_distance 100).2.1
      ∧ decode_distance
            ⟨write_bits_lsb (map_distance 100).2.2.toNat (map_distance 100).2.1, 0⟩
            (map_distance 100).1
          = .ok (some 100,
              ⟨write_bits_lsb (map_distance 100).2.2.toNat (map_distance 100).2.1,
                (map_distance 100).2.1⟩)) :=
  ⟨c5_map_base_plus_extra_roundtrip.1 10 (by norm_num) (by norm_num),
   c5_map_base_plus_extra_roundtrip.2 100 (by norm_num) (by norm_num)⟩

/-- The positive-length enumeration on the decoder side is the swap of
the one feeding the encoder path. -/
theorem decPairs_eq_swap (lengths : List Nat) :
    decPairs lengths = (encPairs lengths).map Prod.swap := by
  rw [decPairs, encPairs, List.map_filterMap]
  congr 1
  funext p
  by_cases hp : p.2 > 0 <;> simp [hp, Prod.swap]

/-- Inserting into the decoder sort after swapping equals swapping the
encoder insertion: both orders are by (length, symbol). -/
theorem insertLex_swap (p : Nat × Nat) :
    ∀ xs : List (Nat × Nat),
      insertLex p.swap (xs.map Prod.swap) = (insertLS p xs).map Prod.swap := by
  intro xs
  induction xs with
  | nil => rfl
  | cons q qs ih =>
    rw [List.map_cons, insertLex, insertLS]
    simp only [Prod.fst_swap, Prod.snd_swap]
    by_cases hc : p.2 < q.2 ∨ (p.2 = q.2 ∧ p.1 < q.1)
    · rw [if_pos hc, if_pos hc, List.map_cons, List.map_cons]
    · rw [if_neg hc, if_neg hc, List.map_cons, ih]

/-- Sorting the swapped pairs lexicographically equals swapping the
(length, symbol) sort of the originals. -/
theorem sortLex_swap : ∀ xs : List (Nat × Nat),
    sortLex (xs.map Prod.swap) = (sortLS xs).map Prod.swap := by
  intro xs
  induction xs with
  | nil => rfl
  | cons p ps ih => rw [List.map_cons, sortLex, sortLS, ih, insertLex_swap]

/-- The decoder code assignment on swapped pairs produces exactly the
reshaped encoder assignment. -/
theorem canonAssignDec_swap : ∀ (xs : List (Nat × Nat)) (code cur : Nat),
    canonAssignDec (xs.map Prod.swap) code cur
      = (canonAssign xs code cur).map (fun e => ((e.2.2, e.2.1), e.1)) := by
  intro xs
  induction xs with
  | nil => intro code cur; rfl
  | cons q qs ih =>
    intro code cur
    obtain ⟨sym, length⟩ := q
    simp only [List.map_cons, Prod.swap_prod_mk]
    rw [canonAssignDec, canonAssign]
    rw [ih]
    rfl

/-- C2 (amended): for every ordered list of code lengths, the encoder
canonicalization seeded with the positive-length (symbol, length)
pairs and the decoder table rebuilt from the lengths alone agree: the
encoder maps s to (code, length) exactly when the decoder table maps
(length, code) back to s. Zero-length symbols are excluded on the
encoder side, as the counterexample forces. -/
theorem c2_canonical_tables_agree (lengths : List Nat) (s c l : Nat) :
    (∃ T, make_canonical_lengths (encPairs lengths) = some T ∧ (s, c, l) ∈ T)
    ↔ ((l, c), s) ∈ build_huffman_tree_from_lengths lengths := by
  rw [build_huffman_tree_from_lengths, decPairs_eq_swap, sortLex_swap,
    make_canonical_lengths]
  cases hs : sortLS (encPairs lengths) with
  | nil => simp
  | cons hd rest =>
    obtain ⟨s0, l0⟩ := hd
    simp only [List.map_cons, Prod.swap_prod_mk]
    have hsw : canonAssignDec ((l0, s0) :: rest.map Prod.swap) 0 l0
        = (canonAssign ((s0, l0) :: rest) 0 l0).map (fun e => ((e.2.2, e.2.1), e.1)) := by
      have h := canonAssignDec_swap ((s0, l0) :: rest) 0 l0
      simpa [Prod.swap_prod_mk] using h
    rw [hsw]
    constructor
    · rintro ⟨T, hT, hmem⟩
      have hTe : canonAssign ((s0, l0) :: rest) 0 l0 = T := Option.some.inj hT
      rw [← hTe] at hmem
      exact List.mem_map.mpr ⟨(s, c, l), hmem, rfl⟩
    · intro hmem
      obtain ⟨e, he, heq⟩ := List.mem_map.mp hmem
      obtain ⟨a, b, d⟩ := e
      obtain ⟨hdb, ha⟩ := Prod.mk.injEq .. ▸ heq
      obtain ⟨hd, hb⟩ := Prod.mk.injEq .. ▸ hdb
      subst hd; subst hb; subst ha
      exact ⟨_, rfl, he⟩

/-- C2 counterexample: the claim fails for a single-symbol histogram:
the encoder path (build_from_freq on one symbol, codes_generation,
make_canonical) assigns symbol 5 the zero-length code (0, 0), but the
decoder table rebuilt from the same per-symbol lengths (all zero) is
empty, so no entry sends (0, 0) back to 5. -/
theorem c2_counterexample :
    build_from_freq [(5, 1)] = some (HNode.leaf 5 1)
    ∧ make_canonical (codes_generation (HNode.leaf 5 1) []) = some [(5, 0, 0)]
    ∧ build_huffman_tree_from_lengths [0, 0, 0, 0, 0, 0] = []
    ∧ ¬(((0, 0), 5) ∈ build_huffman_tree_from_lengths [0, 0, 0, 0, 0, 0]) := by
  exact ⟨by decide, by decide, by decide, by decide⟩

/-- C7 counterexample: in the tokenize run on c7data the final
find_match call sees the two candidates 0 and 8 for the trigram abc,
both matching for the maximal length 3; the returned match has
distance 12 (candidate 0, the earliest stored), not the smallest
distance 4 (candidate 8). -/
theorem c7_counterexample :
    tokenize trigramKey 32768 c7data
      = [(0, .lit 97), (1, .lit 98), (2, .lit 99), (3, .lit 113), (4, .lit 97),
         (5, .lit 98), (6, .lit 119), (7, .mtch 4 3), (10, .lit 99), (11, .lit 122),
         (12, .mtch 12 3)]
    ∧ validCandidates trigramKey 32768 c7data 12 (insertBack trigramKey c7data 12 tblC7)
        = [0, 8]
    ∧ matchLen c7data 0 12 0 = 3
    ∧ matchLen c7data 8 12 0 = 3
    ∧ (find_match trigramKey 32768 c7data 12 tblC7).1 = some (12, 3)
    ∧ 12 - 8 < 12 - 0 := by
  exact ⟨by decide, by decide, by decide, by decide, by decide, by decide⟩

end DeflateVerify
